import Mathlib

/-!
Verification development for the rustyheads Doppelkopf engine
(src/src/main.rs).  The definitions below are a shallow embedding of the
Rust source: pure functions become Lean functions, in-place mutation
becomes explicit state passing, `panic!` / failing `unwrap()` become
`none` / a dedicated failure constructor, and the iterative search loop
becomes a step function driven by fuel.  Machine integers are modelled
as `Nat` / `Int`; none of the verified properties depends on wrap-around
behaviour (eye sums stay far below 2^31, depths far below 2^8), which is
noted where relevant.
-/

namespace Rustyheads

/-- Suits of cards, as in the Rust `enum Suit`. -/
inductive Suit where
  | Hearts
  | Diamonds
  | Clubs
  | Spades
deriving DecidableEq, Repr, Inhabited

/-- Faces of cards, as in the Rust `enum Face`. -/
inductive Face where
  | Two | Three | Four | Five | Six | Seven | Eight | Nine | Ten
  | Jack | Queen | King | Ace
deriving DecidableEq, Repr, Inhabited

/-- Teams; `Contra < Re` in the Rust derive order (used only for equality here). -/
inductive Team where
  | Contra
  | Re
deriving DecidableEq, Repr, Inhabited

/-- Match types, in the Rust declaration (and hence election) order. -/
inductive MatchType where
  | Normal
  | JackSolo
  | QueenSolo
  | BestSolo
  | HeartsSolo
  | SpadesSolo
  | CrossSolo
  | Fleshless
deriving DecidableEq, Repr, Inhabited

/-- Three-valued outcome of `Card::winning_card`.  The spec names the same
three outcomes FirstWins / CandidateWins / ChallengerWins; `SelfWins`
corresponds to the candidate (the Rust `self`), `OtherWins` to the
challenger. -/
inductive WinningCard where
  | FirstWins
  | SelfWins
  | OtherWins
deriving DecidableEq, Repr, Inhabited

/-- A card.  `eyes` is the Rust `u8` eye value, `rank` the `u8` rank; both are
modelled as `Nat` (no verified property depends on 8-bit wrap-around). -/
structure Card where
  suit : Suit
  face : Face
  eyes : Nat
  trump : Bool
  rank : Nat
deriving DecidableEq, Repr, Inhabited

/-- Default card used for in-bounds `getD` indexing. -/
def defCard : Card := { suit := .Hearts, face := .Two, eyes := 0, trump := false, rank := 0 }

/-- Rust `Card::serves_this(&self, other)`: the other card serves this one iff
both are trump, or neither is trump and the suits agree. -/
def servesThis (self other : Card) : Bool :=
  (self.trump && other.trump) || (!self.trump && !other.trump && decide (self.suit = other.suit))

/-- Rust `Card::winning_card(&self, first_card, other)`: decides which of
`self` (the candidate, already winning) and `other` (the challenger) wins
relative to the first card of the trick.  Transcribed condition for
condition from the source's truth-table `if` chain; the impossible
quadrants return `none` (the source panics on them at the caller). -/
def winningCard (self first other : Card) : Option WinningCard :=
  let iSrv := servesThis first self
  let oSrv := servesThis first other
  let slto := decide (self.rank < other.rank)
  if !iSrv && !oSrv then
    some .FirstWins
  else if (!iSrv && oSrv && self.trump && !other.trump)
      || (iSrv && !oSrv && !other.trump)
      || (iSrv && oSrv && !slto && !self.trump && !other.trump)
      || (iSrv && oSrv && !slto && self.trump && other.trump) then
    some .SelfWins
  else if (!iSrv && oSrv && !self.trump)
      || (iSrv && !oSrv && !self.trump && other.trump)
      || (iSrv && oSrv && slto && !self.trump && !other.trump)
      || (iSrv && oSrv && slto && self.trump && other.trump) then
    some .OtherWins
  else
    none

/-- Modelled from the spec: `serves(a, b)` as written in §4.2 of the spec,
`(a.trump ∧ b.trump) ∨ (¬a.trump ∧ ¬b.trump ∧ a.suit == b.suit)`.  Used only
to state the refinement claim C1 against the source's `winningCard`. -/
def servesSpec (a b : Card) : Bool :=
  (a.trump && b.trump) || (!a.trump && !b.trump && decide (a.suit = b.suit))

/-- Modelled from the spec: the `pair_vs_first` truth table of §4.2, written
exactly as the three spec rules.  Used only to state claim C1. -/
def pairVsFirstSpec (first cand chal : Card) : WinningCard :=
  if !servesSpec first cand && !servesSpec first chal then
    .FirstWins
  else if servesSpec first cand && !servesSpec first chal then
    -- exactly the candidate serves: it wins unless the challenger is a
    -- non-serving trump while the candidate is non-trump
    (if chal.trump && !cand.trump then .OtherWins else .SelfWins)
  else if !servesSpec first cand && servesSpec first chal then
    -- exactly the challenger serves
    (if cand.trump && !chal.trump then .SelfWins else .OtherWins)
  else
    -- both serve: strictly higher rank wins, ties go to the card played first
    (if cand.rank < chal.rank then .OtherWins else .SelfWins)

/-- Inner loop of `Round::determine_winner`: walk the cards after the first,
keeping the index of the currently winning card.  `none` models the
source's `panic!("Invalid card configuration")`. -/
def detWinnerLoop (firstCard : Card) (played : List Card) :
    List (Nat × Card) → Nat → Option Nat
  | [], w => some w
  | (i, c) :: rest, w =>
    match winningCard (played.getD w defCard) firstCard c with
    | some .OtherWins => detWinnerLoop firstCard played rest i
    | some .SelfWins => detWinnerLoop firstCard played rest w
    | some .FirstWins => detWinnerLoop firstCard played rest w
    | none => none

/-- Rust `Round::determine_winner(played_cards, starting_player)`.  Returns
`none` for the empty list (as the source does) and on the invalid-card
panic inside the loop; the source's callers `unwrap()` the result, so both
cases abort there. -/
def determineWinner (played : List Card) (startingPlayer : Nat) : Option Nat :=
  match played with
  | [] => none
  | firstCard :: _ =>
    (detWinnerLoop firstCard played (played.enum.drop 1) 0).map
      (fun w => (startingPlayer + w) % played.length)

/-- Rust `Round::filter_possible_cards(played_cards, hand)`: with an empty
trick the whole hand is legal; otherwise the cards serving the first card,
falling back to the whole hand when none serves. -/
def filterPossibleCards (playedCards hand : List Card) : List Card :=
  match playedCards with
  | [] => hand
  | firstCard :: _ =>
    let possibleCards := hand.filter (fun c => servesThis c firstCard)
    if possibleCards.length = 0 then hand else possibleCards

/-- Serving-class bit of a card, Rust `ServeFlag::flag_for_card`:
Hearts = 1, Diamonds = 2, Clubs = 4, Spades = 8, Trump = 16. -/
def flagForCard (c : Card) : Nat :=
  if c.trump then 16
  else
    match c.suit with
    | .Hearts => 1
    | .Diamonds => 2
    | .Clubs => 4
    | .Spades => 8

/-- Initial all-ones serve mask, Rust `SERVE_FLAG_ALL` (= 31). -/
def SERVE_FLAG_ALL : Nat := 1 ||| 2 ||| 4 ||| 8 ||| 16

/-- Rust `PlayerBehav::update_serve_flags`: when the trick is non-empty and
the played card does not serve the leading card, clear the leading card's
serving-class bit (`serve_flags &= !flag`, `!` being 8-bit complement,
i.e. XOR with 255). -/
def updateServeFlags (serveFlags : Nat) (playedCards : List Card) (card : Card) : Nat :=
  match playedCards with
  | [] => serveFlags
  | firstCard :: _ =>
    if servesThis card firstCard then serveFlags
    else serveFlags &&& (255 ^^^ flagForCard firstCard)

/-- Fold a sequence of `update_serve_flags` calls (each given the trick state
and the played card) over a starting mask: the serve-mask history of one
player during a match. -/
def applyServeFlagUpdates (serveFlags : Nat) (updates : List (List Card × Card)) : Nat :=
  updates.foldl (fun f u => updateServeFlags f u.1 u.2) serveFlags

/-- Rust `get_team_for_player`: the function reads only the player's hand and
the match type, so it is modelled on the hand.  Every non-Normal variant is
listed explicitly, as in the source. -/
def getTeamForPlayer (hand : List Card) (matchType : MatchType) : Team :=
  match matchType with
  | .Normal =>
    if hand.any (fun c => decide (c.face = .Queen) && decide (c.suit = .Clubs))
    then .Re else .Contra
  | .JackSolo => .Contra
  | .QueenSolo => .Contra
  | .BestSolo => .Contra
  | .HeartsSolo => .Contra
  | .SpadesSolo => .Contra
  | .CrossSolo => .Contra
  | .Fleshless => .Contra

/-! ## Redistribution of unknown cards (`simulation::redistribute_unknown_cards`)

The per-pass assignment: for each card of the shuffled pool (in order), the
source iterates over ALL players, filtering by remaining capacity and by the
per-player legal subset, and pushes a clone of the card to every player that
passes both filters (`.for_each`, with no take-first).  The subset test is a
`binary_search` on the sorted subset, i.e. membership.  The retry loop is
modelled by the list of shuffle orders the injected generator would produce
(one entry per retry, so `orders.length` plays the role of `max_retries`);
each retry restarts from the cleared opponent hands. -/

/-- One player's treatment of one pool card: push it iff the hand is still
below the target count and the card's rank is in the player's legal subset. -/
def pushIfEligible (target : Nat) (subset : List Nat) (hand : List Card) (c : Card) :
    List Card :=
  if hand.length < target && subset.contains c.rank then hand ++ [c] else hand

/-- Offer one card to every player in seat order (the source's
`players.iter_mut().enumerate().filter(..).filter(..).for_each(push)`). -/
def assignCardToAll : List Nat → List (List Nat) → List (List Card) → Card →
    List (List Card)
  | t :: ts, s :: ss, h :: hs, c => pushIfEligible t s h c :: assignCardToAll ts ss hs c
  | _, _, hs, _ => hs

/-- One full pass over the shuffled pool. -/
def distributePass (targets : List Nat) (subsets : List (List Nat))
    (hands : List (List Card)) (order : List Card) : List (List Card) :=
  order.foldl (fun hs c => assignCardToAll targets subsets hs c) hands

/-- Validity check after a pass: every player holds exactly the target count
(the source's `all(|(i, p)| p.get_num_cards() == num_cards[i])`). -/
def handsValid : List Nat → List (List Card) → Bool
  | [], [] => true
  | t :: ts, h :: hs => (h.length = t : Bool) && handsValid ts hs
  | _, _ => false

/-- Outcome of the redistribution retry loop.  `panicAbort` models the
source's `panic!("Distribution failed")` on retry exhaustion: a process
abort, not a recoverable error value. -/
inductive RedistResult where
  | ok (hands : List (List Card))
  | panicAbort
deriving DecidableEq, Repr

/-- The retry loop of `redistribute_unknown_cards`: each retry clears the
opponent hands (`clearedHands`) and runs one pass with the next shuffle
order; on success the hands are kept, and when the retries are exhausted the
source panics. -/
def redistributeLoop (targets : List Nat) (subsets : List (List Nat))
    (clearedHands : List (List Card)) : List (List Card) → RedistResult
  | [] => .panicAbort
  | order :: rest =>
    let hs := distributePass targets subsets clearedHands order
    if handsValid targets hs then .ok hs
    else redistributeLoop targets subsets clearedHands rest

/-! ## Search engine (`mod simulation`)

The iterative alpha-beta minimax of the source is embedded as a step
function on an explicit state plus a fuel-driven loop.  One representation
choice: the Rust `Vec<CardNode>` stack is stored **top-first** (list head =
`Vec` top), so `Vec::push` / `Vec::pop` at the end of the vector become
`cons` / head pattern-matching; `nodes.len()` is the list length,
`nodes.first()` (the stack bottom) is `getLast?`, and the Rust slice
`nodes[(nodes.len() - k)..]` in chronological order is `(take k).reverse`.
`i32` scores are modelled as `Int` together with the source's explicit
`i32::MIN` / `i32::MAX` sentinel checks; no verified property depends on
32-bit wrap-around (eye sums are far below 2^31).  `DepthType` (`u8`) is
modelled as `Nat`; no verified property depends on depths near 2^8. -/

/-- Sentinel for `i32::MIN`. -/
def INT32_MIN : Int := -2147483648

/-- Sentinel for `i32::MAX`. -/
def INT32_MAX : Int := 2147483647

/-- Rust `get_initial_score_for_team`: Re (maximizer) starts at `i32::MIN`,
Contra (minimizer) at `i32::MAX`. -/
def getInitialScoreForTeam : Team → Int
  | .Re => INT32_MIN
  | .Contra => INT32_MAX

/-- Rust `get_score_for_team`: fold a child score into the running optimum of
a node of the given team, returning the (rank, score) pair kept. -/
def getScoreForTeam (oldOptimum newScore : Int) (optimumRank newRank : Nat)
    (team : Team) : Nat × Int :=
  match team with
  | .Re => if oldOptimum < newScore then (newRank, newScore) else (optimumRank, oldOptimum)
  | .Contra => if newScore < oldOptimum then (newRank, newScore) else (optimumRank, oldOptimum)

/-- Rust `get_alpha_beta_for_team`: Re updates alpha with `max`, Contra
updates beta with `min`. -/
def getAlphaBetaForTeam (oldAlpha oldBeta newScore : Int) (team : Team) : Int × Int :=
  match team with
  | .Re => (max oldAlpha newScore, oldBeta)
  | .Contra => (oldAlpha, min oldBeta newScore)

/-- Rust `is_branch_prunable`: `alpha >= beta` at a Re node,
`alpha <= beta` at a Contra node (transcribed as written). -/
def isBranchPrunable (alpha beta : Int) (team : Team) : Bool :=
  match team with
  | .Re => beta ≤ alpha
  | .Contra => alpha ≤ beta

/-- Rust `struct CardNode`. -/
structure CardNode where
  rank : Nat
  score : Int
  alpha : Int
  beta : Int
  visited : Bool
  depth : Nat
  currentPlayer : Nat
  cardsToPlay : List Nat
deriving DecidableEq, Repr, Inhabited

/-- Rust `CardNode::new`: score starts at the team's initial value, alpha at
the Re initial (`i32::MIN`), beta at the Contra initial (`i32::MAX`). -/
def CardNode.new (rank : Nat) (team : Team) (depth : Nat) (currentPlayer : Nat)
    (cardsToPlay : List Nat) : CardNode :=
  { rank := rank
    score := getInitialScoreForTeam team
    alpha := getInitialScoreForTeam .Re
    beta := getInitialScoreForTeam .Contra
    visited := false
    depth := depth
    currentPlayer := currentPlayer
    cardsToPlay := cardsToPlay }

/-- The per-player state the search mutates: a `SimulatedPlayer`'s hand and
team (the only `Player` fields the search reads or writes). -/
structure SimPlayer where
  hand : List Card
  team : Team
deriving DecidableEq, Repr

/-- Default player used for in-bounds `getD` indexing. -/
def defPlayer : SimPlayer := { hand := [], team := .Contra }

instance : Inhabited SimPlayer := ⟨defPlayer⟩

/-- Rust `Vec::swap_remove(i)`: replace element `i` with the last element and
shrink by one. -/
def swapRemove (l : List α) (i : Nat) : List α :=
  match l.getLast? with
  | none => l
  | some lastEl => (l.set i lastEl).dropLast

/-- Rust `PlayerBehav::remove_card_from_hand` restricted to the hand: find
the first card with the given rank and `swap_remove` it; `none` when the
rank is absent. -/
def removeCardFromHand (hand : List Card) (r : Nat) : Option (List Card) :=
  match hand.findIdx? (fun c => c.rank == r) with
  | some i => some (swapRemove hand i)
  | none => none

/-- Remove a card of rank `r` from player `i`'s hand; `none` models both an
out-of-bounds player index (a Rust indexing panic) and the
`remove_card_from_hand(..).unwrap()` panic. -/
def removeFromPlayer (players : List SimPlayer) (i : Nat) (r : Nat) :
    Option (List SimPlayer) :=
  match players.get? i with
  | none => none
  | some p =>
    match removeCardFromHand p.hand r with
    | none => none
    | some h2 => some (players.set i { p with hand := h2 })

/-- Push a card onto player `i`'s hand (Rust `players[i].data_mut().hand.push(c)`).
Caller guarantees `i` is in bounds via a preceding `get?`. -/
def setHandAppend (players : List SimPlayer) (i : Nat) (c : Card) : List SimPlayer :=
  match players.get? i with
  | none => players
  | some p => players.set i { p with hand := p.hand ++ [c] }

/-- Rust `card_lut[rank as usize - 1]`: `none` models the indexing panic,
including the `0 - 1` underflow when `rank = 0`. -/
def lutGet (lut : List Card) (r : Nat) : Option Card :=
  if r = 0 then none else lut.get? (r - 1)

/-- Map a chronological list of nodes to their cards through the lookup
table, failing on any bad rank. -/
def mapLut (lut : List Card) : List CardNode → Option (List Card)
  | [] => some []
  | n :: ns =>
    match lutGet lut n.rank, mapLut lut ns with
    | some c, some cs => some (c :: cs)
    | _, _ => none

/-- The state of the current trick as the search sees it (the fields of
Rust `Round` the search reads). -/
structure RoundState where
  playedCards : List Card
  currentPlayer : Nat
  startingPlayer : Nat
deriving DecidableEq, Repr

/-- Rust `push_round_to_tree`: one node per already-played card of the
current trick, in chronological order, with empty `cards_to_play`. -/
def pushRoundToTree (round : RoundState) (players : List SimPlayer) : List CardNode :=
  round.playedCards.enum.map (fun dc =>
    CardNode.new dc.2.rank
      ((players.getD ((round.startingPlayer + dc.1) % players.length) defPlayer).team)
      dc.1
      ((round.startingPlayer + dc.1) % players.length)
      [])

/-- The loop-constant data of one `minimax` call: players per round, cards in
game, the effective depth limit, the entry stack length minus one, and the
card lookup table. -/
structure MmCtx where
  cpr : Nat
  cig : Nat
  maxDepthEff : Nat
  inl : Nat
  lut : List Card
deriving DecidableEq, Repr

/-- Build the context exactly as the head of Rust `minimax` does (`cpr`,
`cig`, `_max_depth = min(Σ hand sizes, max_depth)`, `inl = nodes.len() - 1`). -/
def mkCtx (nodes : List CardNode) (players : List SimPlayer) (maxDepth : Nat)
    (lut : List Card) : MmCtx :=
  { cpr := players.length
    cig := lut.length * 2
    maxDepthEff := min (players.foldl (fun a p => a + p.hand.length) 0) maxDepth
    inl := nodes.length - 1
    lut := lut }

/-- The mutable state of the loop: the node stack (top-first) and the
simulated players. -/
structure MmState where
  nodes : List CardNode
  players : List SimPlayer
deriving DecidableEq, Repr

/-- Result of one loop iteration: return from `minimax` (the `done` payload
is the returned score plus the final stack and players), continue, or abort
(`fail` covers every `panic!` and failing `unwrap()` in the loop body). -/
inductive StepRes where
  | done (score : Int) (nodes : List CardNode) (players : List SimPlayer)
  | cont (s : MmState)
  | fail
deriving DecidableEq, Repr

/-- Leaf replay: walk the remaining stack bottom-to-top in chunks of `cpr`
cards, crediting each completed trick's eyes to the winner's team
(the source's `for n in &*nodes` loop). -/
def leafGo (cpr : Nat) (lut : List Card) (players : List SimPlayer) :
    List CardNode → Nat → List Card → Int → Int → Option (Int × Int)
  | [], _, _, reScore, contraScore => some (reScore, contraScore)
  | n :: ns, sp, roundCards, reScore, contraScore =>
    match lutGet lut n.rank with
    | none => none
    | some card =>
      let rc := roundCards ++ [card]
      if rc.length = cpr then
        match determineWinner rc sp with
        | none => none
        | some w =>
          match players.get? w with
          | none => none
          | some p =>
            let eyes : Int := rc.foldl (fun a c => a + (c.eyes : Int)) 0
            match p.team with
            | .Re => leafGo cpr lut players ns w [] (reScore + eyes) contraScore
            | .Contra => leafGo cpr lut players ns w [] reScore (contraScore + eyes)
      else leafGo cpr lut players ns sp rc reScore contraScore

/-- The leaf branch of the loop (`cnd == _max_depth && !visited`): replay the
stack, score `re - contra`, mark visited, push back. -/
def leafStep (ctx : MmCtx) (cur : CardNode) (rest : List CardNode)
    (players : List SimPlayer) : StepRes :=
  let startingPlayer :=
    match rest.getLast? with
    | some n => n.currentPlayer
    | none => cur.currentPlayer
  match leafGo ctx.cpr ctx.lut players rest.reverse startingPlayer [] 0 0 with
  | none => .fail
  | some rc =>
    if rc.1 = INT32_MIN ∨ rc.2 = INT32_MAX then .fail
    else .cont ⟨{ cur with score := rc.1 - rc.2, visited := true } :: rest, players⟩

/-- The fully-expanded branch (`cards_to_play empty && visited`): give the
node's card back to its player, return when the stack is back at the entry
length, otherwise propagate score / alpha / beta into the parent and prune. -/
def undoStep (ctx : MmCtx) (cur : CardNode) (rest : List CardNode)
    (players : List SimPlayer) : StepRes :=
  match lutGet ctx.lut cur.rank with
  | none => .fail
  | some card =>
    match players.get? cur.currentPlayer with
    | none => .fail
    | some _ =>
      let players2 := setHandAppend players cur.currentPlayer card
      if rest.length = ctx.inl then .done cur.score rest players2
      else
        match rest with
        | [] => .fail
        | last :: rest2 =>
          if cur.score = INT32_MIN ∨ cur.score = INT32_MAX then .fail
          else
            match players2.get? last.currentPlayer with
            | none => .fail
            | some q =>
              let sc := (getScoreForTeam last.score cur.score 0 0 q.team).2
              let ab := getAlphaBetaForTeam last.alpha last.beta cur.score q.team
              let ctp := if isBranchPrunable ab.1 ab.2 q.team then [] else last.cardsToPlay
              let last2 := { last with score := sc, alpha := ab.1, beta := ab.2, cardsToPlay := ctp }
              .cont ⟨last2 :: rest2, players2⟩

/-- The expansion branch: reconstruct the cards of the current (partial)
trick, then either populate `cards_to_play` on the first visit or pop one
rank and push a child node. -/
def expandStep (ctx : MmCtx) (cur : CardNode) (rest : List CardNode)
    (players : List SimPlayer) : StepRes :=
  if ctx.cpr = 0 then .fail
  else if rest.length < cur.depth % ctx.cpr then .fail
  else
    match mapLut ctx.lut ((rest.take (cur.depth % ctx.cpr)).reverse) with
    | none => .fail
    | some prev =>
      match lutGet ctx.lut cur.rank with
      | none => .fail
      | some curCard =>
        let played := prev ++ [curCard]
        match cur.cardsToPlay.getLast? with
        | none =>
          -- first visit: populate cards_to_play
          if played.length = ctx.cpr then
            if ctx.cpr < cur.currentPlayer + 1 then .fail
            else
              match determineWinner played (ctx.cpr - cur.currentPlayer - 1) with
              | none => .fail
              | some np =>
                match players.get? np with
                | none => .fail
                | some p =>
                  let ctpNew := p.hand.map Card.rank
                  if 0 < ctpNew.length then
                    .cont ⟨{ cur with cardsToPlay := ctpNew, visited := true } :: rest,
                           players⟩
                  else if rest.length + 1 = ctx.cig then
                    .cont ⟨{ cur with cardsToPlay := ctpNew, visited := false } :: rest,
                           players⟩
                  else .fail
          else
            let np := (cur.currentPlayer + 1) % ctx.cpr
            match players.get? np with
            | none => .fail
            | some p =>
              let ctpNew := (filterPossibleCards played p.hand).map Card.rank
              if 0 < ctpNew.length then
                .cont ⟨{ cur with cardsToPlay := ctpNew, visited := true } :: rest,
                       players⟩
              else if rest.length + 1 = ctx.cig then
                .cont ⟨{ cur with cardsToPlay := ctpNew, visited := false } :: rest,
                       players⟩
              else .fail
        | some pr =>
          -- expansion: pop one rank, remove the card, push a child
          let npOpt : Option Nat :=
            if played.length = ctx.cpr then
              if ctx.cpr < cur.currentPlayer + 1 then none
              else determineWinner played (ctx.cpr - cur.currentPlayer - 1)
            else some ((cur.currentPlayer + 1) % ctx.cpr)
          match npOpt with
          | none => .fail
          | some np =>
            match lutGet ctx.lut pr with
            | none => .fail
            | some rc =>
              match removeFromPlayer players np rc.rank with
              | none => .fail
              | some players2 =>
                .cont ⟨CardNode.new rc.rank
                         ((players2.getD np defPlayer).team) (cur.depth + 1) np []
                       :: { cur with cardsToPlay := cur.cardsToPlay.dropLast } :: rest,
                       players2⟩

/-- One iteration of the Rust `minimax` loop: pop the top node and dispatch
on the three branch predicates of the source. -/
def minimaxStep (ctx : MmCtx) (s : MmState) : StepRes :=
  match s.nodes with
  | [] => .fail
  | cur :: rest =>
    if cur.depth = ctx.maxDepthEff ∧ cur.visited = false then
      leafStep ctx cur rest s.players
    else if cur.cardsToPlay = [] ∧ cur.visited = true then
      undoStep ctx cur rest s.players
    else
      expandStep ctx cur rest s.players

/-- Result of running the loop: the returned score (with the final stack and
players), a panic, or fuel exhaustion (the loop itself has no such case; it
models a non-terminating run). -/
inductive MmResult where
  | ok (score : Int) (nodes : List CardNode) (players : List SimPlayer)
  | panicked
  | fuelOut
deriving DecidableEq, Repr

/-- Drive the step function with fuel. -/
def minimaxRun (ctx : MmCtx) : Nat → MmState → MmResult
  | 0, _ => .fuelOut
  | fuel + 1, s =>
    match minimaxStep ctx s with
    | .done sc ns ps => .ok sc ns ps
    | .fail => .panicked
    | .cont s2 => minimaxRun ctx fuel s2

/-- Iterate the step function a fixed number of times (for exhibiting
concrete intermediate states of a run). -/
def minimaxStepN (ctx : MmCtx) : Nat → MmState → StepRes
  | 0, s => .cont s
  | n + 1, s =>
    match minimaxStep ctx s with
    | .cont s2 => minimaxStepN ctx n s2
    | r => r

/-- Rust `minimax`: panic on an empty stack, otherwise set up the context
and loop. -/
def minimaxFuel (nodes : List CardNode) (players : List SimPlayer)
    (maxDepth : Nat) (lut : List Card) (fuel : Nat) : MmResult :=
  if nodes.isEmpty then .panicked
  else minimaxRun (mkCtx nodes players maxDepth lut) fuel ⟨nodes, players⟩

/-- Result of `minimax_broad`: best rank, best score, final players. -/
inductive BroadResult where
  | ok (rank : Nat) (score : Int) (players : List SimPlayer)
  | panicked
  | fuelOut
deriving DecidableEq, Repr

/-- The candidate loop of Rust `minimax_broad`: for each legal card, push a
fresh node, remove the card from the acting player's hand (the `Option`
result is discarded, as in the source), run `minimax`, and fold the score
into the best-move accumulator with `get_score_for_player`. -/
def broadGo (round : RoundState) (maxDepth : Nat) (lut : List Card) (fuel : Nat) :
    List Card → List CardNode → List SimPlayer → Nat → Int → BroadResult
  | [], _, players, bmRank, bmScore => .ok bmRank bmScore players
  | c :: cs, nodes, players, bmRank, bmScore =>
    if round.currentPlayer < players.length then
      let cand := CardNode.new c.rank
        ((players.getD round.currentPlayer defPlayer).team)
        nodes.length round.currentPlayer []
      let players1 :=
        match removeFromPlayer players round.currentPlayer c.rank with
        | some ps => ps
        | none => players
      match minimaxFuel (cand :: nodes) players1 maxDepth lut fuel with
      | .ok sc nodes2 players2 =>
        let bm := getScoreForTeam bmScore sc bmRank c.rank
          ((players2.getD round.currentPlayer defPlayer).team)
        broadGo round maxDepth lut fuel cs nodes2 players2 bm.1 bm.2
      | .panicked => .panicked
      | .fuelOut => .fuelOut
    else .panicked

/-- Rust `minimax_broad`: build the current trick's history nodes, then run
the candidate loop starting from the acting player's initial score. -/
def minimaxBroad (possibleCards : List Card) (players : List SimPlayer)
    (round : RoundState) (maxDepth : Nat) (lut : List Card) (fuel : Nat) :
    BroadResult :=
  if players.isEmpty then .panicked
  else if round.currentPlayer < players.length then
    let nodes0 := (pushRoundToTree round players).reverse
    broadGo round maxDepth lut fuel possibleCards nodes0 players 0
      (getInitialScoreForTeam ((players.getD round.currentPlayer defPlayer).team))
  else .panicked

/-! ## Concrete instances

Small concrete games used to evaluate the embedding at explicit inputs.
`tcard r` is a trump card of rank `r` worth one eye; trump cards serve each
other regardless of suit and face, so these make self-contained examples. -/

/-- A trump test card of rank `r`, worth one eye. -/
def tcard (r : Nat) : Card :=
  { suit := .Hearts, face := .Two, eyes := 1, trump := true, rank := r }

/-- The Queen of Clubs (the Re-defining card of a Normal match). -/
def queenClubs : Card :=
  { suit := .Clubs, face := .Queen, eyes := 3, trump := true, rank := 30 }

/-- Lookup table of four trump cards, ranks 1..4 (`lut[i].rank = i + 1`). -/
def lutA : List Card := [tcard 1, tcard 2, tcard 3, tcard 4]

/-- Players of the small search game used for C3 and C4: at `minimax` entry
the acting player 0 (Re) has already had the candidate removed, player 1
(Contra) holds ranks 2 and 3. -/
def playersC3 : List SimPlayer := [⟨[], .Re⟩, ⟨[tcard 2, tcard 3], .Contra⟩]

/-- Candidate node for rank 1 played by player 0, as `minimax_broad` creates it. -/
def candC3 : CardNode := CardNode.new 1 .Re 0 0 []

/-- Context of that `minimax` call (cpr 2, cig 8, effective depth 2, inl 0). -/
def ctxC3 : MmCtx := mkCtx [candC3] playersC3 8 lutA

/-- Entry state of that `minimax` call. -/
def stateC3 : MmState := ⟨[candC3], playersC3⟩

/-- The state after seven loop iterations: the candidate is back on top with
its score and alpha updated to -2 by its first child, and rank 2 still
pending in `cards_to_play`. -/
def candC3Seven : CardNode :=
  { rank := 1, score := -2, alpha := -2, beta := INT32_MAX, visited := true,
    depth := 0, currentPlayer := 0, cardsToPlay := [2] }

/-- The second child as iteration eight creates it: alpha and beta are reset
to the extremes instead of inheriting the parent's (-2, `INT32_MAX`). -/
def childC3 : CardNode :=
  { rank := 2, score := INT32_MAX, alpha := INT32_MIN, beta := INT32_MAX,
    visited := false, depth := 1, currentPlayer := 1, cardsToPlay := [] }

/-- The candidate as it sits below that second child. -/
def candC3Eight : CardNode :=
  { rank := 1, score := -2, alpha := -2, beta := INT32_MAX, visited := true,
    depth := 0, currentPlayer := 0, cardsToPlay := [] }

/-- Players of the `minimax_broad` entry for the C4 witness: player 0 still
holds the candidate rank 1. -/
def playersC4 : List SimPlayer := [⟨[tcard 1], .Re⟩, ⟨[tcard 2, tcard 3], .Contra⟩]

/-- An empty current trick with player 0 to act. -/
def roundC4 : RoundState := ⟨[], 0, 0⟩

/-- Lookup table of nine trump cards, ranks 1..9. -/
def lutB : List Card :=
  [tcard 1, tcard 2, tcard 3, tcard 4, tcard 5, tcard 6, tcard 7, tcard 8, tcard 9]

/-- Four players for the C2 state; the trick's winner (player 1) holds rank 8
and player 3 holds rank 9, so which hand populates `cards_to_play` is
observable. -/
def playersC2 : List SimPlayer :=
  [⟨[], .Re⟩, ⟨[tcard 8], .Contra⟩, ⟨[], .Contra⟩, ⟨[tcard 9], .Contra⟩]

/-- The current trick of the C2 state, in chronological order: player 1 led
the highest trump (rank 4), players 2 and 3 followed with ranks 2 and 3,
and player 0 completes the trick with rank 1.  Player 1 wins the trick. -/
def playedC2 : List Card := [tcard 4, tcard 2, tcard 3, tcard 1]

/-- Node stack of the C2 state (top-first): the completing node for player 0
on top of the three history nodes of the trick. -/
def nodesC2 : List CardNode :=
  [CardNode.new 1 .Re 3 0 [], CardNode.new 3 .Contra 2 3 [],
   CardNode.new 2 .Contra 1 2 [], CardNode.new 4 .Contra 0 1 []]

/-- Context of the C2 state. -/
def ctxC2 : MmCtx := mkCtx nodesC2 playersC2 8 lutB

/-- The C2 state itself: a `minimax` entry whose candidate completes the
current trick. -/
def stateC2 : MmState := ⟨nodesC2, playersC2⟩

/-- The state after one iteration on `stateC2`: the top node was populated
from player 3's hand (rank 9). -/
def stateC2After : MmState :=
  ⟨[{ rank := 1, score := INT32_MIN, alpha := INT32_MIN, beta := INT32_MAX,
      visited := true, depth := 3, currentPlayer := 0, cardsToPlay := [9] },
    CardNode.new 3 .Contra 2 3 [], CardNode.new 2 .Contra 1 2 [],
    CardNode.new 4 .Contra 0 1 []], playersC2⟩

/-- Lookup table with a single card: the whole game has `cig = 2` cards. -/
def lutC5 : List Card := [tcard 1]

/-- Two players with empty hands (the end of the game). -/
def playersC5 : List SimPlayer := [⟨[], .Contra⟩, ⟨[], .Contra⟩]

/-- Node stack for the C5 state: both copies of the single card are in the
tree, the top node unvisited with empty `cards_to_play`. -/
def nodesC5 : List CardNode := [CardNode.new 1 .Contra 1 0 [], CardNode.new 1 .Contra 0 0 []]

/-- Context of the C5 state (cpr 2, cig 2, effective depth 0, inl 1). -/
def ctxC5 : MmCtx := mkCtx nodesC5 playersC5 8 lutC5

/-- The C5 state: one loop iteration maps it to itself. -/
def stateC5 : MmState := ⟨nodesC5, playersC5⟩

/-- A non-trump test card for the redistribution examples. -/
def aceHearts : Card :=
  { suit := .Hearts, face := .Ace, eyes := 11, trump := false, rank := 1 }

/-! ## Observables for the search invariants -/

/-- The multiset of ranks in player `i`'s hand (the code's card equality is
rank equality, so hands are compared as multisets of ranks). -/
def handBag (players : List SimPlayer) (i : Nat) : Multiset Nat :=
  ((players.getD i defPlayer).hand.map Card.rank : Multiset Nat)

/-- The multiset of ranks of the nodes belonging to player `i`. -/
def rankBagOf (i : Nat) (ns : List CardNode) : Multiset Nat :=
  ((ns.filter (fun n => n.currentPlayer == i)).map CardNode.rank : Multiset Nat)

/-- The ranks player `i` owns among the nodes pushed above the entry stack
(the stack is top-first, so these are the first `length - inl` nodes). -/
def regionBag (inl : Nat) (ns : List CardNode) (i : Nat) : Multiset Nat :=
  rankBagOf i (ns.take (ns.length - inl))

/-- Well-formedness of the card lookup table, the source's own indexing
assumption: the card at index `i` has rank `i + 1`, so that
`card_lut[rank - 1]` recovers a card from its rank. -/
def WfLut (lut : List Card) : Prop :=
  ∀ i (h : i < lut.length), (lut.get ⟨i, h⟩).rank = i + 1

/-- The conservation invariant of one `minimax` call: the player count is
fixed, the stack never drops below the entry length, and for every player
the ranks in their hand plus the ranks of their nodes above the entry stack
form a constant multiset. -/
def MmInv (np0 inl : Nat) (B : Nat → Multiset Nat) (s : MmState) : Prop :=
  s.players.length = np0 ∧ inl + 1 ≤ s.nodes.length ∧
  ∀ i, handBag s.players i + regionBag inl s.nodes i = B i

/-! ## Theorems -/

/-- Claim C1: for every triple of cards (first, candidate, challenger), the
source's `Card::winning_card` (candidate as `self`, challenger as `other`)
returns exactly the outcome of the spec's `pair_vs_first` truth table; in
particular the impossible quadrants (which would return `none` and panic at
the caller) are unreachable for actual cards. -/
theorem c1_winning_card_matches_spec_table (first cand chal : Card) :
    winningCard cand first chal = some (pairVsFirstSpec first cand chal) := by
  obtain ⟨fs, ff, fe, ft, fr⟩ := first
  obtain ⟨cs, cf, ce, ct, cr⟩ := cand
  obtain ⟨hs, hf, he, ht, hr⟩ := chal
  simp only [winningCard, pairVsFirstSpec, servesThis, servesSpec]
  cases ft <;> cases ct <;> cases ht <;>
    by_cases h1 : fs = cs <;> by_cases h2 : fs = hs <;> by_cases h3 : cr < hr <;>
      simp_all <;> rw [if_neg (by omega)]

theorem servesThis_symm_spec (a b : Card) : servesThis a b = servesSpec b a := by
  obtain ⟨as0, af, ae, at0, ar⟩ := a
  obtain ⟨bs, bf, be, bt, br⟩ := b
  by_cases h : as0 = bs <;> cases at0 <;> cases bt <;> simp_all [servesThis, servesSpec, eq_comm]

/-- Claim C6: `Round::filter_possible_cards` returns the entire hand when
the trick is empty; otherwise the subset of the hand serving the leading
card (with `serves` exactly as the spec defines it), falling back to the
entire hand when that subset is empty; hence the result is non-empty for
every non-empty hand. -/
theorem c6_filter_possible_cards (played hand : List Card) :
    (played = [] → filterPossibleCards played hand = hand) ∧
    (∀ firstCard rest, played = firstCard :: rest →
      filterPossibleCards played hand =
        (if (hand.filter (fun c => servesSpec firstCard c)).length = 0 then hand
         else hand.filter (fun c => servesSpec firstCard c))) ∧
    (hand ≠ [] → filterPossibleCards played hand ≠ []) := by
  refine ⟨?_, ?_, ?_⟩
  · intro h; subst h; rfl
  · intro firstCard rest h; subst h
    simp only [filterPossibleCards]
    have : (fun c => servesThis c firstCard) = (fun c => servesSpec firstCard c) := by
      funext c; exact servesThis_symm_spec c firstCard
    rw [this]
  · intro hne
    cases played with
    | nil => simpa [filterPossibleCards] using hne
    | cons firstCard rest =>
      simp only [filterPossibleCards]
      split
      · exact hne
      · intro hcon
        simp_all

theorem nat_land_self (g : Nat) : g &&& g = g := by
  apply Nat.eq_of_testBit_eq
  intro i
  simp [Nat.testBit_land]

theorem updateServeFlags_land (g f : Nat) (p : List Card) (c : Card) (h : g &&& f = g) :
    updateServeFlags g p c &&& f = updateServeFlags g p c := by
  cases p with
  | nil => exact h
  | cons firstCard rest =>
    simp only [updateServeFlags]
    split
    · exact h
    · apply Nat.eq_of_testBit_eq
      intro i
      have hb := congrArg (fun n => n.testBit i) h
      simp only [Nat.testBit_land] at hb ⊢
      cases hg : g.testBit i <;> cases hf : f.testBit i <;> simp_all

theorem applyServeFlagUpdates_land (updates : List (List Card × Card)) :
    ∀ g f : Nat, g &&& f = g →
      applyServeFlagUpdates g updates &&& f = applyServeFlagUpdates g updates := by
  induction updates with
  | nil => intro g f h; simpa [applyServeFlagUpdates] using h
  | cons u us ih =>
    intro g f h
    simp only [applyServeFlagUpdates, List.foldl_cons]
    exact ih _ _ (updateServeFlags_land g f u.1 u.2 h)

/-- Claim C10: the serve-flag mask is bitwise monotonically non-increasing
over any sequence of `update_serve_flags` calls (the only operation that
writes the mask between match initializations): the final mask ANDed with
the initial mask is the final mask, and a bit cleared in the initial mask
can never be set in the result. -/
theorem c10_serve_flags_monotone (flags : Nat) (updates : List (List Card × Card)) :
    applyServeFlagUpdates flags updates &&& flags = applyServeFlagUpdates flags updates ∧
    ∀ k, flags.testBit k = false → (applyServeFlagUpdates flags updates).testBit k = false := by
  have h1 := applyServeFlagUpdates_land updates flags flags (nat_land_self flags)
  refine ⟨h1, ?_⟩
  intro k hk
  have hb := congrArg (fun n => n.testBit k) h1
  simp only [Nat.testBit_land, hk, Bool.and_false] at hb
  exact hb.symm

/-- Claim C7 (amended): for match type Normal a player is assigned Re iff
their hand contains a copy of the Queen of Clubs; for every Solo and
Fleshless match type `get_team_for_player` assigns Contra to every player,
including the declarer (the function does not even receive who declared). -/
theorem c7_team_assignment_amended (hand : List Card) (mt : MatchType) :
    (mt = .Normal →
      (getTeamForPlayer hand mt = .Re ↔ ∃ c ∈ hand, c.face = .Queen ∧ c.suit = .Clubs)) ∧
    (mt ≠ .Normal → getTeamForPlayer hand mt = .Contra) := by
  constructor
  · rintro rfl
    simp only [getTeamForPlayer]
    split
    · next hany =>
      simp only [List.any_eq_true, Bool.and_eq_true, decide_eq_true_eq] at hany
      simpa using hany
    · next hany =>
      simp only [List.any_eq_true, Bool.and_eq_true, decide_eq_true_eq] at hany
      constructor
      · intro hcon; cases hcon
      · intro hex; exact absurd (by simpa using hex) hany
  · intro hne; cases mt <;> simp_all [getTeamForPlayer]

/-- Claim C2 (evaluation of the code at the failing input): on a node whose
move completes a trick, the expansion step computes the next player by
calling `determine_winner` with leader index `cpr - current_player - 1`
instead of the trick's starting player `(current_player + 1) % cpr`.  Here
the trick [rank 4, rank 2, rank 3, rank 1] was led by player 1 and completed
by player 0; the winner under the true starter is player 1 (holding rank 8),
yet the code populates `cards_to_play` from player 3's hand (rank 9). -/
theorem c2_completed_trick_next_player_eval :
    minimaxStep ctxC2 stateC2 = StepRes.cont stateC2After ∧
    stateC2After.nodes.headI.cardsToPlay = [9] ∧
    (playersC2.getD 3 defPlayer).hand.map Card.rank = [9] ∧
    determineWinner playedC2 ((stateC2.nodes.headI.currentPlayer + 1) % 4) = some 1 ∧
    (playersC2.getD 1 defPlayer).hand.map Card.rank = [8] := by
  refine ⟨by decide, by decide, by decide, by decide, by decide⟩

/-- Claim C3 counterexample: from a genuine `minimax` entry state, seven
iterations leave the candidate node on top with alpha = -2 (updated by its
first child) and rank 2 still pending; the eighth iteration pushes the
second child whose alpha is `i32::MIN` and beta `i32::MAX` - the parent's
(-2, `i32::MAX`) window is NOT inherited, refuting the claim as stated. -/
theorem c3_alpha_beta_not_inherited_counterexample :
    minimaxStepN ctxC3 7 stateC3 =
      StepRes.cont ⟨[candC3Seven], [⟨[], .Re⟩, ⟨[tcard 2, tcard 3], .Contra⟩]⟩ ∧
    minimaxStepN ctxC3 8 stateC3 =
      StepRes.cont ⟨[childC3, candC3Eight], [⟨[], .Re⟩, ⟨[tcard 3], .Contra⟩]⟩ ∧
    childC3.alpha = INT32_MIN ∧ candC3Seven.alpha = -2 ∧ INT32_MIN ≠ (-2 : Int) := by
  refine ⟨by decide, by decide, by decide, by decide, by decide⟩

theorem c5_step_fixpoint : minimaxStep ctxC5 stateC5 = StepRes.cont stateC5 := by decide

theorem c5_run_fuelOut : ∀ fuel, minimaxRun ctxC5 fuel stateC5 = MmResult.fuelOut := by
  intro fuel
  induction fuel with
  | zero => rfl
  | succ n ih =>
    simp only [minimaxRun, c5_step_fixpoint]
    exact ih

/-- Claim C5 counterexample: a concrete non-empty-stack input on which the
loop does not terminate.  In the end-of-game special case (no cards found
for the next player and stack length + 1 equals the number of cards in
game) the top node is re-pushed unchanged with `visited = false`, so one
iteration maps the state to itself, and no amount of fuel produces a
result. -/
theorem c5_nontermination_counterexample :
    minimaxStep ctxC5 stateC5 = StepRes.cont stateC5 ∧
    ¬ ∃ fuel sc ns ps, minimaxRun ctxC5 fuel stateC5 = MmResult.ok sc ns ps := by
  refine ⟨c5_step_fixpoint, ?_⟩
  rintro ⟨fuel, sc, ns, ps, h⟩
  rw [c5_run_fuelOut fuel] at h
  cases h

/-- Claim C8 (evaluation of the code at the failing input): the assignment
pass offers each pool card to every opponent passing the capacity and
legal-subset filters and pushes a clone to each of them (the source's
`for_each` has no take-first), so a one-card pool fills BOTH one-card
opponents; the count check then accepts this non-partition. -/
theorem c8_duplication_eval :
    distributePass [1, 1] [[1], [1]] [[], []] [aceHearts] = [[aceHearts], [aceHearts]] ∧
    handsValid [1, 1] [[aceHearts], [aceHearts]] = true := by
  refine ⟨by decide, by decide⟩

/-- Claim C9 (evaluation of the code at the failing input): with an opponent
whose legal subset is empty, every retry fails, and on exhaustion of the
retry cap `redistribute_unknown_cards` ends in the source's
`panic!("Distribution failed")` - modelled by `panicAbort`, a process
abort, not a recoverable RedistributionInfeasible error value. -/
theorem c9_retry_exhaustion_panic_eval :
    redistributeLoop [1] [[]] [[]] (List.replicate 100 [aceHearts]) = RedistResult.panicAbort := by
  decide

theorem leafStep_cont (ctx : MmCtx) (cur : CardNode) (rest : List CardNode)
    (players : List SimPlayer) (s2 : MmState)
    (h : leafStep ctx cur rest players = .cont s2) :
    ∃ sc, s2 = ⟨{ cur with score := sc, visited := true } :: rest, players⟩ := by
  unfold leafStep at h
  dsimp only at h
  split at h
  · cases h
  · split at h
    · cases h
    · cases h
      exact ⟨_, rfl⟩

theorem undoStep_cont (ctx : MmCtx) (cur : CardNode) (rest : List CardNode)
    (players : List SimPlayer) (s2 : MmState)
    (h : undoStep ctx cur rest players = .cont s2) :
    ∃ card p0 last rest2 sc a b ctp,
      lutGet ctx.lut cur.rank = some card ∧
      players.get? cur.currentPlayer = some p0 ∧
      rest = last :: rest2 ∧ rest.length ≠ ctx.inl ∧
      (ctp = last.cardsToPlay ∨ ctp = []) ∧
      s2 = ⟨{ last with score := sc, alpha := a, beta := b, cardsToPlay := ctp } :: rest2,
            setHandAppend players cur.currentPlayer card⟩ := by
  unfold undoStep at h
  split at h
  · cases h
  · next card hcard =>
    split at h
    · cases h
    · next p0 hp0 =>
      dsimp only at h
      split at h
      · cases h
      · next hne =>
        split at h
        · cases h
        · next last rest2 =>
          split at h
          · cases h
          · split at h
            · cases h
            · next q hq =>
              cases h
              refine ⟨card, p0, last, rest2, _, _, _, _, hcard, hp0, rfl, hne, ?_, rfl⟩
              split
              · exact Or.inr rfl
              · exact Or.inl rfl

theorem undoStep_done (ctx : MmCtx) (cur : CardNode) (rest : List CardNode)
    (players : List SimPlayer) (sc : Int) (ns : List CardNode) (ps : List SimPlayer)
    (h : undoStep ctx cur rest players = .done sc ns ps) :
    ∃ card p0,
      lutGet ctx.lut cur.rank = some card ∧
      players.get? cur.currentPlayer = some p0 ∧
      rest.length = ctx.inl ∧ ns = rest ∧
      ps = setHandAppend players cur.currentPlayer card ∧ sc = cur.score := by
  unfold undoStep at h
  split at h
  · cases h
  · next card hcard =>
    split at h
    · cases h
    · next p0 hp0 =>
      dsimp only at h
      split at h
      · next heq =>
        cases h
        exact ⟨card, p0, hcard, hp0, heq, rfl, rfl, rfl⟩
      · split at h
        · cases h
        · split at h
          · cases h
          · split at h
            · cases h
            · cases h

theorem expandStep_cont (ctx : MmCtx) (cur : CardNode) (rest : List CardNode)
    (players : List SimPlayer) (s2 : MmState)
    (h : expandStep ctx cur rest players = .cont s2) :
    (∃ ctpNew v,
      cur.cardsToPlay = [] ∧
      ((v = true ∧ ctpNew ≠ []) ∨ (v = false ∧ ctpNew = [] ∧ rest.length + 1 = ctx.cig)) ∧
      s2 = ⟨{ cur with cardsToPlay := ctpNew, visited := v } :: rest, players⟩) ∨
    (∃ pr rc np players2,
      cur.cardsToPlay.getLast? = some pr ∧
      lutGet ctx.lut pr = some rc ∧
      removeFromPlayer players np rc.rank = some players2 ∧
      s2 = ⟨CardNode.new rc.rank ((players2.getD np defPlayer).team) (cur.depth + 1) np []
              :: { cur with cardsToPlay := cur.cardsToPlay.dropLast } :: rest,
            players2⟩) := by
  unfold expandStep at h
  split at h
  · cases h
  · split at h
    · cases h
    · split at h
      · cases h
      · next prev hprev =>
        split at h
        · cases h
        · next curCard hcur =>
          try dsimp only at h
          split at h
          · -- first visit: populate
            next hctp =>
            have hctp2 : cur.cardsToPlay = [] := by simpa using hctp
            split at h
            · -- trick complete
              split at h
              · cases h
              · split at h
                · cases h
                · next np hnp =>
                  split at h
                  · cases h
                  · next p hp =>
                    try dsimp only at h
                    split at h
                    · next hpos =>
                      cases h
                      refine Or.inl ⟨_, true, hctp2, Or.inl ⟨rfl, ?_⟩, rfl⟩
                      intro hemp
                      rw [hemp] at hpos
                      simp at hpos
                    · split at h
                      · next hcig =>
                        cases h
                        refine Or.inl ⟨_, false, hctp2, Or.inr ⟨rfl, ?_, hcig⟩, rfl⟩
                        next hpos =>
                        cases hmap : p.hand.map Card.rank with
                        | nil => rfl
                        | cons x xs => rw [hmap] at hpos; simp at hpos
                      · cases h
            · -- trick not complete
              split at h
              · cases h
              · next p hp =>
                try dsimp only at h
                split at h
                · next hpos =>
                  cases h
                  refine Or.inl ⟨_, true, hctp2, Or.inl ⟨rfl, ?_⟩, rfl⟩
                  intro hemp
                  rw [hemp] at hpos
                  simp at hpos
                · split at h
                  · next hcig =>
                    cases h
                    refine Or.inl ⟨_, false, hctp2, Or.inr ⟨rfl, ?_, hcig⟩, rfl⟩
                    next hpos =>
                    cases hmap : (filterPossibleCards (prev ++ [curCard]) p.hand).map Card.rank with
                    | nil => rfl
                    | cons x xs => rw [hmap] at hpos; simp at hpos
                  · cases h
          · -- expansion: pop a rank and push a child
            next pr hpr =>
            try dsimp only at h
            split at h
            · cases h
            · next np hnp =>
              split at h
              · cases h
              · next rc hrc =>
                split at h
                · cases h
                · next players2 hrem =>
                  cases h
                  exact Or.inr ⟨pr, rc, np, players2, hpr, hrc, hrem, rfl⟩

theorem leafStep_ne_done (ctx : MmCtx) (cur : CardNode) (rest : List CardNode)
    (players : List SimPlayer) (sc : Int) (ns : List CardNode) (ps : List SimPlayer)
    (h : leafStep ctx cur rest players = .done sc ns ps) : False := by
  unfold leafStep at h
  dsimp only at h
  split at h
  · cases h
  · split at h
    · cases h
    · cases h

theorem expandStep_ne_done (ctx : MmCtx) (cur : CardNode) (rest : List CardNode)
    (players : List SimPlayer) (sc : Int) (ns : List CardNode) (ps : List SimPlayer)
    (h : expandStep ctx cur rest players = .done sc ns ps) : False := by
  unfold expandStep at h
  split at h
  · cases h
  · split at h
    · cases h
    · split at h
      · cases h
      · split at h
        · cases h
        · try dsimp only at h
          split at h
          · split at h
            · split at h
              · cases h
              · split at h
                · cases h
                · split at h
                  · cases h
                  · try dsimp only at h
                    split at h
                    · cases h
                    · split at h
                      · cases h
                      · cases h
            · split at h
              · cases h
              · try dsimp only at h
                split at h
                · cases h
                · split at h
                  · cases h
                  · cases h
          · try dsimp only at h
            split at h
            · cases h
            · split at h
              · cases h
              · split at h
                · cases h
                · cases h


theorem minimaxStep_cont_inv (ctx : MmCtx) (s s2 : MmState)
    (h : minimaxStep ctx s = .cont s2) :
    ∃ cur rest, s.nodes = cur :: rest ∧
    ((∃ sc, cur.depth = ctx.maxDepthEff ∧ cur.visited = false ∧
        s2 = ⟨{ cur with score := sc, visited := true } :: rest, s.players⟩) ∨
     (∃ card p0 last rest2 sc a b ctp,
        cur.cardsToPlay = [] ∧ cur.visited = true ∧
        lutGet ctx.lut cur.rank = some card ∧
        s.players.get? cur.currentPlayer = some p0 ∧
        rest = last :: rest2 ∧ rest.length ≠ ctx.inl ∧
        (ctp = last.cardsToPlay ∨ ctp = []) ∧
        s2 = ⟨{ last with score := sc, alpha := a, beta := b, cardsToPlay := ctp } :: rest2,
              setHandAppend s.players cur.currentPlayer card⟩) ∨
     (∃ ctpNew v,
        cur.cardsToPlay = [] ∧ ¬(cur.cardsToPlay = [] ∧ cur.visited = true) ∧
        ((v = true ∧ ctpNew ≠ []) ∨ (v = false ∧ ctpNew = [] ∧ rest.length + 1 = ctx.cig)) ∧
        s2 = ⟨{ cur with cardsToPlay := ctpNew, visited := v } :: rest, s.players⟩) ∨
     (∃ pr rc np players2,
        cur.cardsToPlay.getLast? = some pr ∧
        lutGet ctx.lut pr = some rc ∧
        removeFromPlayer s.players np rc.rank = some players2 ∧
        s2 = ⟨CardNode.new rc.rank ((players2.getD np defPlayer).team) (cur.depth + 1) np []
                :: { cur with cardsToPlay := cur.cardsToPlay.dropLast } :: rest,
              players2⟩)) := by
  obtain ⟨nodes, players⟩ := s
  cases nodes with
  | nil =>
    simp only [minimaxStep] at h
    cases h
  | cons cur rest =>
    simp only [minimaxStep] at h
    refine ⟨cur, rest, rfl, ?_⟩
    split at h
    · next hguard =>
      obtain ⟨sc, hs2⟩ := leafStep_cont ctx cur rest players s2 h
      exact Or.inl ⟨sc, hguard.1, hguard.2, hs2⟩
    · split at h
      · next hguard =>
        obtain ⟨card, p0, last, rest2, sc, a, b, ctp, h1, h2, h3, h4, h5, h6⟩ :=
          undoStep_cont ctx cur rest players s2 h
        exact Or.inr (Or.inl ⟨card, p0, last, rest2, sc, a, b, ctp,
          hguard.1, hguard.2, h1, h2, h3, h4, h5, h6⟩)
      · next hg2 =>
        rcases expandStep_cont ctx cur rest players s2 h with hpop | hexp
        · obtain ⟨ctpNew, v, hc1, hc2, hc3⟩ := hpop
          exact Or.inr (Or.inr (Or.inl ⟨ctpNew, v, hc1, hg2, hc2, hc3⟩))
        · exact Or.inr (Or.inr (Or.inr hexp))

theorem minimaxStep_done_inv (ctx : MmCtx) (s : MmState) (sc : Int)
    (ns : List CardNode) (ps : List SimPlayer)
    (h : minimaxStep ctx s = .done sc ns ps) :
    ∃ cur rest card p0, s.nodes = cur :: rest ∧
      lutGet ctx.lut cur.rank = some card ∧
      s.players.get? cur.currentPlayer = some p0 ∧
      rest.length = ctx.inl ∧ ns = rest ∧
      ps = setHandAppend s.players cur.currentPlayer card ∧ sc = cur.score := by
  obtain ⟨nodes, players⟩ := s
  cases nodes with
  | nil =>
    simp only [minimaxStep] at h
    cases h
  | cons cur rest =>
    simp only [minimaxStep] at h
    split at h
    · exact absurd h (fun hh => leafStep_ne_done ctx cur rest players sc ns ps hh)
    · split at h
      · obtain ⟨card, p0, h1, h2, h3, h4, h5, h6⟩ :=
          undoStep_done ctx cur rest players sc ns ps h
        exact ⟨cur, rest, card, p0, rfl, h1, h2, h3, h4, h5, h6⟩
      · exact absurd h (fun hh => expandStep_ne_done ctx cur rest players sc ns ps hh)

theorem swapRemove_perm : ∀ (l : List Card) (i : Nat), i < l.length →
    (swapRemove l i).Perm (l.eraseIdx i) := by
  intro l
  induction l with
  | nil => intro i hi; simp at hi
  | cons a t ih =>
    intro i hi
    cases i with
    | zero =>
      cases t with
      | nil => simp [swapRemove]
      | cons b c2_completed_trick_next_player_eval =>
        have hne : (b :: c2_completed_trick_next_player_eval) ≠ ([] : List Card) := by simp
        simp only [swapRemove, List.getLast?_cons_cons, List.eraseIdx]
        rw [List.getLast?_eq_getLast _ hne]
        simp only [List.set]
        rw [List.dropLast_cons_of_ne_nil hne]
        have hperm := List.perm_append_singleton ((b :: c2_completed_trick_next_player_eval).getLast hne) ((b :: c2_completed_trick_next_player_eval).dropLast)
        rw [List.dropLast_append_getLast hne] at hperm
        exact hperm.symm
    | succ j =>
      have hj : j < t.length := by simpa using hi
      have htne : t ≠ ([] : List Card) := by
        intro hcon; rw [hcon] at hj; simp at hj
      have hsr : swapRemove (a :: t) (j + 1) = a :: swapRemove t j := by
        simp only [swapRemove]
        rw [List.getLast?_eq_getLast _ (by simp), List.getLast?_eq_getLast _ htne]
        rw [List.getLast_cons htne]
        simp only [List.set]
        have hset_ne : t.set j (t.getLast htne) ≠ ([] : List Card) := by
          intro hcon
          have := congrArg List.length hcon
          simp at this
          rw [this] at hj; simp at hj
        rw [List.dropLast_cons_of_ne_nil hset_ne]
      rw [hsr]
      simpa [List.eraseIdx] using (ih j hj).cons a

theorem perm_get_cons_eraseIdx (l : List Card) (i : Nat) (hi : i < l.length) :
    l.Perm (l.get ⟨i, hi⟩ :: l.eraseIdx i) := by
  conv_lhs => rw [← List.take_append_drop i l]
  rw [List.drop_eq_getElem_cons hi]
  rw [List.eraseIdx_eq_take_drop_succ]
  have := @List.perm_middle Card (l.get ⟨i, hi⟩) (l.take i) (l.drop (i + 1))
  simpa using this

theorem removeCardFromHand_bag (hand : List Card) (r : Nat) (h2 : List Card)
    (h : removeCardFromHand hand r = some h2) :
    (hand.map Card.rank : Multiset Nat) = r ::ₘ (h2.map Card.rank : Multiset Nat) := by
  unfold removeCardFromHand at h
  split at h
  · next i hfind =>
    cases h
    obtain ⟨hilt, hidx⟩ := List.findIdx?_eq_some_iff_findIdx_eq.mp hfind
    have hrank : (hand.get ⟨i, hilt⟩).rank = r := by
      have hp := @List.findIdx_getElem Card (fun c => c.rank == r) hand
        (by rw [hidx]; exact hilt)
      simp only [beq_iff_eq] at hp
      simpa [hidx] using hp
    have hperm1 := perm_get_cons_eraseIdx hand i hilt
    have hperm2 := swapRemove_perm hand i hilt
    have hmap1 : (hand.map Card.rank).Perm
        ((hand.get ⟨i, hilt⟩).rank :: (hand.eraseIdx i).map Card.rank) := by
      simpa using hperm1.map Card.rank
    have hmap2 : ((swapRemove hand i).map Card.rank).Perm
        ((hand.eraseIdx i).map Card.rank) := hperm2.map Card.rank
    rw [hrank] at hmap1
    have : (hand.map Card.rank).Perm (r :: (swapRemove hand i).map Card.rank) :=
      hmap1.trans (List.Perm.cons r hmap2.symm)
    rw [Multiset.cons_coe]
    exact Multiset.coe_eq_coe.mpr this
  · cases h

theorem handBag_set (players : List SimPlayer) (j : Nat) (p2 : SimPlayer) (i : Nat)
    (hj : j < players.length) :
    handBag (players.set j p2) i =
      if j = i then (p2.hand.map Card.rank : Multiset Nat) else handBag players i := by
  unfold handBag
  by_cases hij : j = i
  · subst hij
    rw [List.getD_eq_getElem?_getD, List.getElem?_set_self hj]
    simp
  · rw [List.getD_eq_getElem?_getD, List.getElem?_set_ne hij, ← List.getD_eq_getElem?_getD]
    simp [hij]

theorem getD_of_get? (players : List SimPlayer) (j : Nat) (p0 : SimPlayer)
    (hp : players.get? j = some p0) : players.getD j defPlayer = p0 := by
  rw [List.getD_eq_getElem?_getD, ← List.get?_eq_getElem?, hp]
  rfl

theorem lt_length_of_get? (players : List SimPlayer) (j : Nat) (p0 : SimPlayer)
    (hp : players.get? j = some p0) : j < players.length := by
  obtain ⟨hlt, -⟩ := List.get?_eq_some.mp hp
  exact hlt

theorem coe_map_append_single (l : List Card) (c : Card) :
    (((l ++ [c]).map Card.rank : List Nat) : Multiset Nat) =
      c.rank ::ₘ ((l.map Card.rank : List Nat) : Multiset Nat) := by
  rw [Multiset.cons_coe, Multiset.coe_eq_coe, List.map_append]
  exact List.perm_append_singleton c.rank (l.map Card.rank)

theorem setHandAppend_length (players : List SimPlayer) (j : Nat) (c : Card) :
    (setHandAppend players j c).length = players.length := by
  unfold setHandAppend
  split
  · rfl
  · exact List.length_set players _ _

theorem handBag_setHandAppend (players : List SimPlayer) (j : Nat) (c : Card)
    (p0 : SimPlayer) (hp : players.get? j = some p0) (i : Nat) :
    handBag (setHandAppend players j c) i =
      if j = i then c.rank ::ₘ handBag players i else handBag players i := by
  unfold setHandAppend
  rw [hp]
  rw [handBag_set players j _ i (lt_length_of_get? players j p0 hp)]
  by_cases hij : j = i
  · subst hij
    simp only [if_pos rfl]
    have hgd := getD_of_get? players j p0 hp
    unfold handBag
    rw [hgd]
    exact coe_map_append_single p0.hand c
  · simp [hij]

theorem removeFromPlayer_spec (players : List SimPlayer) (np r : Nat)
    (ps2 : List SimPlayer) (h : removeFromPlayer players np r = some ps2) :
    ps2.length = players.length ∧
    (∀ i, i ≠ np → handBag ps2 i = handBag players i) ∧
    handBag players np = r ::ₘ handBag ps2 np := by
  unfold removeFromPlayer at h
  split at h
  · cases h
  · next p0 hp0 =>
    split at h
    · cases h
    · next h2 hrem =>
      cases h
      have hlt := lt_length_of_get? players np p0 hp0
      refine ⟨List.length_set players _ _, ?_, ?_⟩
      · intro i hi
        rw [handBag_set players np _ i hlt]
        rw [if_neg (fun hcon => hi hcon.symm)]
      · rw [handBag_set players np _ np hlt]
        simp only [if_pos rfl]
        have hbag := removeCardFromHand_bag p0.hand r h2 hrem
        unfold handBag
        rw [getD_of_get? players np p0 hp0]
        exact hbag

theorem rankBagOf_cons (i : Nat) (n : CardNode) (ns : List CardNode) :
    rankBagOf i (n :: ns) =
      if n.currentPlayer = i then n.rank ::ₘ rankBagOf i ns else rankBagOf i ns := by
  unfold rankBagOf
  rw [List.filter_cons]
  by_cases h : n.currentPlayer = i
  · simp [h]
  · simp [h]

theorem regionBag_cons (inl : Nat) (n : CardNode) (ns : List CardNode) (i : Nat)
    (h : inl ≤ ns.length) :
    regionBag inl (n :: ns) i =
      if n.currentPlayer = i then n.rank ::ₘ regionBag inl ns i else regionBag inl ns i := by
  unfold regionBag
  have hlen : (n :: ns).length - inl = (ns.length - inl) + 1 := by
    simp only [List.length_cons]
    omega
  rw [hlen, List.take_succ_cons, rankBagOf_cons]

theorem regionBag_of_length_le (inl : Nat) (ns : List CardNode) (i : Nat)
    (h : ns.length ≤ inl) : regionBag inl ns i = 0 := by
  unfold regionBag
  rw [Nat.sub_eq_zero_of_le h]
  simp [rankBagOf]

theorem lutGet_rank (lut : List Card) (r : Nat) (c : Card) (hw : WfLut lut)
    (h : lutGet lut r = some c) : c.rank = r := by
  unfold lutGet at h
  split at h
  · cases h
  · next hr =>
    obtain ⟨hlt, heq⟩ := List.get?_eq_some.mp h
    rw [← heq, hw (r - 1) hlt]
    omega

theorem minimaxStep_preserves (ctx : MmCtx) (np0 : Nat) (B : Nat → Multiset Nat)
    (s s2 : MmState) (hw : WfLut ctx.lut) (hinv : MmInv np0 ctx.inl B s)
    (h : minimaxStep ctx s = .cont s2) : MmInv np0 ctx.inl B s2 := by
  obtain ⟨hlen, hJ, hbag⟩ := hinv
  obtain ⟨cur, rest, hnodes, hcase⟩ := minimaxStep_cont_inv ctx s s2 h
  have hJr : ctx.inl ≤ rest.length := by
    rw [hnodes] at hJ
    simpa using hJ
  rcases hcase with ⟨sc, -, -, hs2⟩ | huc | hpop | hexp
  · -- leaf scoring: same stack length, same rank and player on top
    subst hs2
    refine ⟨hlen, ?_, ?_⟩
    · rw [hnodes] at hJ
      simpa using hJ
    · intro i
      have hb := hbag i
      rw [hnodes] at hb
      rw [regionBag_cons _ _ _ _ hJr] at hb ⊢
      exact hb
  · -- undo and propagate: the stack shrinks, the card returns to the hand
    obtain ⟨card, p0, last, rest2, sc, a, b, ctp, -, -, hcard, hp0, hrl, hrne, -, hs2⟩ := huc
    subst hs2
    subst hrl
    have hrank : card.rank = cur.rank := lutGet_rank ctx.lut cur.rank card hw hcard
    have hJr2 : ctx.inl ≤ rest2.length := by
      simp only [List.length_cons] at hJr hrne
      omega
    refine ⟨?_, ?_, ?_⟩
    · rw [setHandAppend_length]
      exact hlen
    · simp only [List.length_cons]
      omega
    · intro i
      have hb := hbag i
      rw [hnodes] at hb
      rw [regionBag_cons _ _ _ _ hJr, regionBag_cons _ _ _ _ hJr2] at hb
      rw [regionBag_cons _ _ _ _ hJr2]
      rw [handBag_setHandAppend s.players cur.currentPlayer card p0 hp0 i]
      simp only []
      rw [← hb]
      rw [hrank]
      by_cases h1 : cur.currentPlayer = i <;> by_cases h2 : last.currentPlayer = i <;>
        simp [h1, h2, Multiset.cons_add, Multiset.add_cons, Multiset.cons_swap]
  · -- first-visit population: same stack length, same rank and player on top
    obtain ⟨ctpNew, v, -, -, -, hs2⟩ := hpop
    subst hs2
    refine ⟨hlen, ?_, ?_⟩
    · rw [hnodes] at hJ
      simpa using hJ
    · intro i
      have hb := hbag i
      rw [hnodes] at hb
      rw [regionBag_cons _ _ _ _ hJr] at hb ⊢
      exact hb
  · -- expansion: one card moves from a hand into a new top node
    obtain ⟨pr, rc, np, players2, -, -, hrem, hs2⟩ := hexp
    subst hs2
    obtain ⟨hlen2, hoth, hnp⟩ := removeFromPlayer_spec s.players np rc.rank players2 hrem
    refine ⟨?_, ?_, ?_⟩
    · rw [hlen2]
      exact hlen
    · simp only [List.length_cons]
      omega
    · intro i
      have hb := hbag i
      rw [hnodes] at hb
      rw [regionBag_cons _ _ _ _ hJr] at hb
      have hJr3 : ctx.inl ≤ (({ cur with cardsToPlay := cur.cardsToPlay.dropLast } : CardNode)
          :: rest).length := by
        simp only [List.length_cons]
        omega
      rw [regionBag_cons _ _ _ _ hJr3, regionBag_cons _ _ _ _ hJr]
      simp only [CardNode.new]
      by_cases h1 : np = i
      · subst h1
        rw [if_pos rfl]
        rw [← hb]
        have := hnp
        rw [this]
        by_cases h2 : cur.currentPlayer = np <;>
          simp [h2, Multiset.cons_add, Multiset.add_cons, Multiset.cons_swap]
      · rw [if_neg h1, hoth i (fun hcon => h1 hcon.symm)]
        rw [← hb]


theorem minimaxStep_done_spec (ctx : MmCtx) (np0 : Nat) (B : Nat → Multiset Nat)
    (s : MmState) (sc : Int) (ns : List CardNode) (ps : List SimPlayer)
    (hw : WfLut ctx.lut) (hinv : MmInv np0 ctx.inl B s)
    (h : minimaxStep ctx s = .done sc ns ps) :
    ps.length = np0 ∧ ∀ i, handBag ps i = B i := by
  obtain ⟨hlen, hJ, hbag⟩ := hinv
  obtain ⟨cur, rest, card, p0, hnodes, hcard, hp0, hrl, -, hps, -⟩ :=
    minimaxStep_done_inv ctx s sc ns ps h
  have hrank : card.rank = cur.rank := lutGet_rank ctx.lut cur.rank card hw hcard
  subst hps
  constructor
  · rw [setHandAppend_length]
    exact hlen
  · intro i
    have hb := hbag i
    rw [hnodes] at hb
    rw [regionBag_cons _ _ _ _ (le_of_eq hrl.symm)] at hb
    rw [regionBag_of_length_le _ _ _ (le_of_eq hrl)] at hb
    rw [handBag_setHandAppend s.players cur.currentPlayer card p0 hp0 i]
    rw [← hb, hrank]
    by_cases h1 : cur.currentPlayer = i <;> simp [h1]
    rw [add_comm, Multiset.singleton_add]

theorem minimaxRun_ok_spec (ctx : MmCtx) (np0 : Nat) (B : Nat → Multiset Nat)
    (hw : WfLut ctx.lut) :
    ∀ (fuel : Nat) (s : MmState) (sc : Int) (ns : List CardNode) (ps : List SimPlayer),
      MmInv np0 ctx.inl B s → minimaxRun ctx fuel s = .ok sc ns ps →
      ps.length = np0 ∧ ∀ i, handBag ps i = B i := by
  intro fuel
  induction fuel with
  | zero => intro s sc ns ps _ h; cases h
  | succ n ih =>
    intro s sc ns ps hinv h
    simp only [minimaxRun] at h
    cases hstep : minimaxStep ctx s with
    | done sc2 ns2 ps2 =>
      rw [hstep] at h
      cases h
      exact minimaxStep_done_spec ctx np0 B s _ _ _ hw ⟨hinv.1, hinv.2.1, hinv.2.2⟩ hstep
    | cont s2 =>
      rw [hstep] at h
      exact ih s2 sc ns ps (minimaxStep_preserves ctx np0 B s s2 hw hinv hstep) h
    | fail =>
      rw [hstep] at h
      cases h

theorem minimaxFuel_ok_spec (nodes : List CardNode) (players : List SimPlayer)
    (maxDepth : Nat) (lut : List Card) (fuel : Nat) (sc : Int) (ns : List CardNode)
    (ps : List SimPlayer) (hw : WfLut lut)
    (h : minimaxFuel nodes players maxDepth lut fuel = .ok sc ns ps) :
    ps.length = players.length ∧
    ∀ i, handBag ps i = handBag players i + regionBag (nodes.length - 1) nodes i := by
  unfold minimaxFuel at h
  split at h
  · cases h
  · next hne =>
    have hlen : 1 ≤ nodes.length := by
      cases nodes with
      | nil => simp at hne
      | cons a b => simp
    have hinv : MmInv players.length (mkCtx nodes players maxDepth lut).inl
        (fun i => handBag players i + regionBag (nodes.length - 1) nodes i)
        ⟨nodes, players⟩ := by
      refine ⟨rfl, ?_, fun i => rfl⟩
      simp only [mkCtx]
      omega
    exact minimaxRun_ok_spec (mkCtx nodes players maxDepth lut) players.length _ hw
      fuel ⟨nodes, players⟩ sc ns ps hinv h

theorem removeFromPlayer_isSome (players : List SimPlayer) (cp r : Nat)
    (hcp : cp < players.length)
    (hmem : r ∈ (players.getD cp defPlayer).hand.map Card.rank) :
    ∃ ps1, removeFromPlayer players cp r = some ps1 := by
  have hget : players.get? cp = some (players.getD cp defPlayer) := by
    rw [List.getD_eq_getElem?_getD, List.get?_eq_getElem?]
    cases hx : players[cp]? with
    | none =>
      rw [List.getElem?_eq_none_iff] at hx
      omega
    | some p => rfl
  obtain ⟨h2, hrm⟩ : ∃ h2,
      removeCardFromHand (players.getD cp defPlayer).hand r = some h2 := by
    unfold removeCardFromHand
    cases hfind : (players.getD cp defPlayer).hand.findIdx? (fun c => c.rank == r) with
    | none =>
      rw [List.findIdx?_eq_none_iff] at hfind
      obtain ⟨c, hc, hcr⟩ := List.mem_map.mp hmem
      have := hfind c hc
      rw [hcr] at this
      simp at this
    | some j => exact ⟨_, rfl⟩
  refine ⟨players.set cp { players.getD cp defPlayer with hand := h2 }, ?_⟩
  unfold removeFromPlayer
  rw [hget]
  dsimp only
  rw [hrm]

theorem broadGo_spec (round : RoundState) (maxDepth : Nat) (lut : List Card)
    (fuel : Nat) (hw : WfLut lut) :
    ∀ (cands : List Card) (nodes : List CardNode) (players : List SimPlayer)
      (bmR : Nat) (bmS : Int) (r : Nat) (s : Int) (ps : List SimPlayer),
      (∀ c ∈ cands, c.rank ∈ handBag players round.currentPlayer) →
      broadGo round maxDepth lut fuel cands nodes players bmR bmS = .ok r s ps →
      ps.length = players.length ∧ ∀ i, handBag ps i = handBag players i := by
  intro cands
  induction cands with
  | nil =>
    intro nodes players bmR bmS r s ps hmem h
    simp only [broadGo] at h
    cases h
    exact ⟨rfl, fun i => rfl⟩
  | cons c cs ih =>
    intro nodes players bmR bmS r s ps hmem h
    simp only [broadGo] at h
    split at h
    · next hcp =>
      obtain ⟨ps1, hps1⟩ := removeFromPlayer_isSome players round.currentPlayer c.rank hcp
        (Multiset.mem_coe.mp (hmem c (by simp)))
      try dsimp only at h
      rw [hps1] at h
      try dsimp only at h
      cases hmf : minimaxFuel
          (CardNode.new c.rank ((players.getD round.currentPlayer defPlayer).team)
            nodes.length round.currentPlayer [] :: nodes) ps1 maxDepth lut fuel with
      | ok sc2 nodes2 players2 =>
        rw [hmf] at h
        try dsimp only at h
        obtain ⟨hl2, hb2⟩ := minimaxFuel_ok_spec _ ps1 maxDepth lut fuel sc2 nodes2 players2 hw hmf
        obtain ⟨hl1, hoth1, hcp1⟩ := removeFromPlayer_spec players round.currentPlayer c.rank ps1 hps1
        have hEq : ∀ i, handBag players2 i = handBag players i := by
          intro i
          have hb2i := hb2 i
          simp only [List.length_cons, Nat.add_sub_cancel] at hb2i
          rw [regionBag_cons _ _ _ _ (le_refl nodes.length),
            regionBag_of_length_le _ _ _ (le_refl nodes.length)] at hb2i
          simp only [CardNode.new] at hb2i
          by_cases hi : round.currentPlayer = i
          · subst hi
            rw [if_pos rfl] at hb2i
            rw [hb2i, hcp1]
            rw [add_comm]
            simp [Multiset.singleton_add]
          · rw [if_neg hi] at hb2i
            rw [hb2i, hoth1 i (fun hcon => hi hcon.symm)]
            simp
        have hmem2 : ∀ c2 ∈ cs, c2.rank ∈ handBag players2 round.currentPlayer := by
          intro c2 hc2
          rw [hEq round.currentPlayer]
          exact hmem c2 (by simp [hc2])
        obtain ⟨hlps, hbps⟩ := ih nodes2 players2 _ _ r s ps hmem2 h
        refine ⟨?_, ?_⟩
        · rw [hlps, hl2, hl1]
        · intro i
          rw [hbps i, hEq i]
      | panicked =>
        rw [hmf] at h
        cases h
      | fuelOut =>
        rw [hmf] at h
        cases h
    · cases h

/-- Claim C4: whenever the search (`minimax_broad` over simulated players,
any legal candidate set, any depth and fuel) returns, every simulated
player's hand holds exactly the same multiset of ranks as at search entry -
each in-place play is exactly undone.  Hypotheses: the lookup table is
well-formed (`lut[i].rank = i + 1`, the source's own indexing assumption),
the acting player index is in range, and each candidate's rank occurs in the
acting player's hand (a legal candidate set). -/
theorem c4_search_restores_hands (possibleCards : List Card) (players : List SimPlayer) (round : RoundState)
    (maxDepth : Nat) (lut : List Card) (fuel : Nat) (r : Nat) (s : Int)
    (ps : List SimPlayer) (hw : WfLut lut)
    (hmem : ∀ c ∈ possibleCards, c.rank ∈ handBag players round.currentPlayer)
    (h : minimaxBroad possibleCards players round maxDepth lut fuel = .ok r s ps) :
    ps.length = players.length ∧ ∀ i, handBag ps i = handBag players i := by
  unfold minimaxBroad at h
  split at h
  · cases h
  · split at h
    · exact broadGo_spec round maxDepth lut fuel hw possibleCards _ players _ _ r s ps hmem h
    · cases h

theorem c4_search_restores_hands_witness :
    WfLut lutA ∧
    (∀ c ∈ [tcard 1], c.rank ∈ handBag playersC4 roundC4.currentPlayer) ∧
    minimaxBroad [tcard 1] playersC4 roundC4 8 lutA 20 =
      .ok 1 (-2) [⟨[tcard 1], .Re⟩, ⟨[tcard 3, tcard 2], .Contra⟩] ∧
    handBag [(⟨[tcard 1], .Re⟩ : SimPlayer), ⟨[tcard 3, tcard 2], .Contra⟩] 0 =
      handBag playersC4 0 ∧
    handBag [(⟨[tcard 1], .Re⟩ : SimPlayer), ⟨[tcard 3, tcard 2], .Contra⟩] 1 =
      handBag playersC4 1 := by
  have hw : WfLut lutA := by
    intro i h
    have h4 : i < 4 := by simpa [lutA] using h
    interval_cases i <;> rfl
  have hmem : ∀ c ∈ [tcard 1], c.rank ∈ handBag playersC4 roundC4.currentPlayer := by
    intro c hc
    simp only [List.mem_singleton] at hc
    subst hc
    decide
  have hrun : minimaxBroad [tcard 1] playersC4 roundC4 8 lutA 20 =
      .ok 1 (-2) [⟨[tcard 1], .Re⟩, ⟨[tcard 3, tcard 2], .Contra⟩] := by decide
  have hmain := c4_search_restores_hands [tcard 1] playersC4 roundC4 8 lutA 20 1 (-2)
    [⟨[tcard 1], .Re⟩, ⟨[tcard 3, tcard 2], .Contra⟩] hw hmem hrun
  exact ⟨hw, hmem, hrun, hmain.2 0, hmain.2 1⟩


/-- Claim C3 (amended): the score of every node created during expansion is
initialized to the initial value of its player's team (`i32::MIN` for Re,
`i32::MAX` for Contra), and its alpha and beta are initialized to `i32::MIN`
and `i32::MAX` unconditionally - `CardNode::new` resets them, nothing is
inherited from the parent; parents accumulate alpha/beta only as their own
children return. -/
theorem c3_child_init_amended (ctx : MmCtx) (s s2 : MmState) (c : CardNode) (rest2 : List CardNode)
    (h : minimaxStep ctx s = .cont s2) (hns : s2.nodes = c :: rest2)
    (hgrow : s2.nodes.length = s.nodes.length + 1) :
    c.alpha = INT32_MIN ∧ c.beta = INT32_MAX ∧
    c.score = getInitialScoreForTeam ((s2.players.getD c.currentPlayer defPlayer).team) := by
  obtain ⟨cur, rest, hnodes, hcase⟩ := minimaxStep_cont_inv ctx s s2 h
  rcases hcase with ⟨sc, -, -, hs2⟩ | huc | hpop | hexp
  · subst hs2
    rw [hnodes] at hgrow
    simp at hgrow
  · obtain ⟨card, p0, last, rest2x, sc, a, b, ctp, -, -, -, -, hrl, -, -, hs2⟩ := huc
    subst hs2
    rw [hnodes, hrl] at hgrow
    simp at hgrow
  · obtain ⟨ctpNew, v, -, -, -, hs2⟩ := hpop
    subst hs2
    rw [hnodes] at hgrow
    simp at hgrow
  · obtain ⟨pr, rc, np, players2, -, -, -, hs2⟩ := hexp
    subst hs2
    simp only [List.cons.injEq] at hns
    obtain ⟨hc, -⟩ := hns
    rw [← hc]
    exact ⟨rfl, rfl, rfl⟩

/-- Claim C5 (amended): every continuing iteration of the loop either keeps
the stack and flips work on the top node - setting `visited` (leaf scoring
or successful first-visit population), or re-pushing the node unchanged and
unvisited in the end-of-game case (stack length + 1 = cards in game), where
the state can repeat and the loop need not terminate - or shrinks the stack
by one (undo), or pushes one child while the top node's `cards_to_play`
shrinks by one (expansion).  The claim's per-iteration variant (stack or
top `cards_to_play` always shrinks) holds only for the undo and expansion
iterations. -/
theorem c5_iteration_classification_amended (ctx : MmCtx) (s s2 : MmState) (cur : CardNode) (rest : List CardNode)
    (hn : s.nodes = cur :: rest) (h : minimaxStep ctx s = .cont s2) :
    (∃ cur2, s2.nodes = cur2 :: rest ∧ cur2.rank = cur.rank ∧
       cur2.currentPlayer = cur.currentPlayer ∧
       ((cur.visited = false ∧ cur2.visited = true) ∨
        (cur.visited = false ∧ cur2.visited = false ∧ cur2.cardsToPlay = [] ∧
         rest.length + 1 = ctx.cig))) ∨
    (∃ last rest2 last2, rest = last :: rest2 ∧ s2.nodes = last2 :: rest2) ∨
    (∃ child cur2, s2.nodes = child :: cur2 :: rest ∧
       cur2.cardsToPlay.length + 1 = cur.cardsToPlay.length) := by
  obtain ⟨cur0, rest0, hnodes, hcase⟩ := minimaxStep_cont_inv ctx s s2 h
  rw [hn] at hnodes
  cases hnodes
  rcases hcase with ⟨sc, -, hvis, hs2⟩ | huc | hpop | hexp
  · subst hs2
    exact Or.inl ⟨_, rfl, rfl, rfl, Or.inl ⟨hvis, rfl⟩⟩
  · obtain ⟨card, p0, last, rest2x, sc, a, b, ctp, -, -, -, -, hrl, -, -, hs2⟩ := huc
    subst hs2
    exact Or.inr (Or.inl ⟨last, rest2x, _, hrl, rfl⟩)
  · obtain ⟨ctpNew, v, hctp, hg2, hv, hs2⟩ := hpop
    subst hs2
    have hvis : cur.visited = false := by
      cases hcv : cur.visited with
      | false => rfl
      | true => exact absurd ⟨hctp, hcv⟩ hg2
    rcases hv with ⟨hv1, -⟩ | ⟨hv1, hv2, hv3⟩
    · subst hv1
      exact Or.inl ⟨_, rfl, rfl, rfl, Or.inl ⟨hvis, rfl⟩⟩
    · subst hv1
      exact Or.inl ⟨_, rfl, rfl, rfl, Or.inr ⟨hvis, rfl, hv2, hv3⟩⟩
  · obtain ⟨pr, rc, np, players2, hpr, -, -, hs2⟩ := hexp
    subst hs2
    refine Or.inr (Or.inr ⟨_, _, rfl, ?_⟩)
    simp only []
    have hne : cur.cardsToPlay ≠ [] := by
      intro hcon
      rw [hcon] at hpr
      cases hpr
    rw [List.length_dropLast]
    have hge : 1 ≤ cur.cardsToPlay.length := by
      cases hl : cur.cardsToPlay with
      | nil => exact absurd hl hne
      | cons a b => simp
    omega

/-- Claim C7 counterexample: in a JackSolo, a declaring player (like every
player) is assigned Contra by `get_team_for_player`, not Re as the claim
states; the concrete hand even holds the Queen of Clubs. -/
theorem c7_solo_declarer_counterexample :
    getTeamForPlayer [queenClubs] MatchType.JackSolo = Team.Contra ∧
    Team.Contra ≠ Team.Re := by
  exact ⟨rfl, by decide⟩

/-- Witness for the amended claim C3 at a concrete expansion step of the C3
run: the step from the seven-iteration state pushes the second child, whose
alpha, beta and score are the reset initial values. -/
theorem c3_child_init_amended_witness :
    minimaxStep ctxC3 ⟨[candC3Seven], [⟨[], .Re⟩, ⟨[tcard 2, tcard 3], .Contra⟩]⟩ =
      StepRes.cont ⟨[childC3, candC3Eight], [⟨[], .Re⟩, ⟨[tcard 3], .Contra⟩]⟩ ∧
    (childC3.alpha = INT32_MIN ∧ childC3.beta = INT32_MAX ∧
     childC3.score = getInitialScoreForTeam
       ((([⟨[], .Re⟩, ⟨[tcard 3], .Contra⟩] : List SimPlayer).getD
          childC3.currentPlayer defPlayer).team)) := by
  refine ⟨by decide, ?_⟩
  exact c3_child_init_amended ctxC3
    ⟨[candC3Seven], [⟨[], .Re⟩, ⟨[tcard 2, tcard 3], .Contra⟩]⟩
    ⟨[childC3, candC3Eight], [⟨[], .Re⟩, ⟨[tcard 3], .Contra⟩]⟩
    childC3 [candC3Eight] (by decide) rfl (by decide)

/-- Witness for the amended claim C5 at the end-of-game fixpoint state: the
iteration classification applies with the re-push case. -/
theorem c5_iteration_classification_amended_witness :
    stateC5.nodes = CardNode.new 1 .Contra 1 0 [] :: [CardNode.new 1 .Contra 0 0 []] ∧
    minimaxStep ctxC5 stateC5 = StepRes.cont stateC5 ∧
    ((∃ cur2, stateC5.nodes = cur2 :: [CardNode.new 1 .Contra 0 0 []] ∧
        cur2.rank = (CardNode.new 1 .Contra 1 0 []).rank ∧
        cur2.currentPlayer = (CardNode.new 1 .Contra 1 0 []).currentPlayer ∧
        (((CardNode.new 1 .Contra 1 0 []).visited = false ∧ cur2.visited = true) ∨
         ((CardNode.new 1 .Contra 1 0 []).visited = false ∧ cur2.visited = false ∧
          cur2.cardsToPlay = [] ∧
          ([CardNode.new 1 .Contra 0 0 []] : List CardNode).length + 1 = ctxC5.cig))) ∨
     (∃ last rest2 last2, ([CardNode.new 1 .Contra 0 0 []] : List CardNode) = last :: rest2 ∧
        stateC5.nodes = last2 :: rest2) ∨
     (∃ child cur2, stateC5.nodes = child :: cur2 :: [CardNode.new 1 .Contra 0 0 []] ∧
        cur2.cardsToPlay.length + 1 = (CardNode.new 1 .Contra 1 0 []).cardsToPlay.length)) := by
  refine ⟨rfl, by decide, ?_⟩
  exact c5_iteration_classification_amended ctxC5 stateC5 stateC5
    (CardNode.new 1 .Contra 1 0 []) [CardNode.new 1 .Contra 0 0 []] rfl (by decide)

/-- Witness for claim C6 at concrete inputs: an empty trick returns the full
hand; a trump lead against a non-trump hand filters to the empty subset and
falls back to the full hand, which is non-empty. -/
theorem c6_filter_possible_cards_witness :
    filterPossibleCards [] [aceHearts] = [aceHearts] ∧
    filterPossibleCards [tcard 1] [aceHearts] =
      (if (([aceHearts].filter (fun c => servesSpec (tcard 1) c)).length = 0)
       then [aceHearts]
       else [aceHearts].filter (fun c => servesSpec (tcard 1) c)) ∧
    filterPossibleCards [tcard 1] [aceHearts] ≠ [] := by
  refine ⟨?_, ?_, ?_⟩
  · exact (c6_filter_possible_cards [] [aceHearts]).1 rfl
  · exact (c6_filter_possible_cards [tcard 1] [aceHearts]).2.1 (tcard 1) [] rfl
  · exact (c6_filter_possible_cards [tcard 1] [aceHearts]).2.2 (by decide)

/-- Witness for the amended claim C7 at concrete inputs: a hand with the
Queen of Clubs in a Normal match, and any player in a JackSolo. -/
theorem c7_team_assignment_amended_witness :
    (getTeamForPlayer [queenClubs] MatchType.Normal = Team.Re ↔
      ∃ c ∈ [queenClubs], c.face = Face.Queen ∧ c.suit = Suit.Clubs) ∧
    getTeamForPlayer [queenClubs] MatchType.JackSolo = Team.Contra := by
  refine ⟨?_, ?_⟩
  · exact (c7_team_assignment_amended [queenClubs] MatchType.Normal).1 rfl
  · exact (c7_team_assignment_amended [queenClubs] MatchType.JackSolo).2 (by decide)

/-- Witness for claim C10 at a concrete input: starting from mask 16 (only
the Trump bit set), one update that clears the Hearts class leaves the mask
a sub-mask of 16, and the initially cleared bit 0 stays cleared. -/
theorem c10_serve_flags_monotone_witness :
    (applyServeFlagUpdates 16 [([aceHearts], tcard 1)]) &&& 16 =
      applyServeFlagUpdates 16 [([aceHearts], tcard 1)] ∧
    Nat.testBit 16 0 = false ∧
    (applyServeFlagUpdates 16 [([aceHearts], tcard 1)]).testBit 0 = false := by
  refine ⟨(c10_serve_flags_monotone 16 [([aceHearts], tcard 1)]).1, by decide, ?_⟩
  exact (c10_serve_flags_monotone 16 [([aceHearts], tcard 1)]).2 0 (by decide)

end Rustyheads
